import Mathlib

/-!
Verification development for the `node-ircd-base` IRC server library.

The definitions below are a shallow embedding of `src/client.js` (class
`IrcClient`) and `src/constants.js`.  Strings are modelled as `List Char`;
JavaScript string primitives (`indexOf`, `substring` with argument
swapping, `split`, `toUpperCase` on ASCII, the `x || null` falsiness
normalization) are modelled explicitly.  Stateful connection logic is
modelled as explicit state passing over a `ConnState` record together with
an event trace.
-/

/-- Converts a Lean string literal to the character-list representation used
by the model. -/
def chars (s : String) : List Char := s.data

/-- Model of JavaScript `String.prototype.indexOf` for a single character:
index of the first occurrence, or `none` when absent (JS returns -1). -/
def jsIndexOf (c : Char) : List Char → Option Nat
  | [] => none
  | a :: rest => if a = c then some 0 else (jsIndexOf c rest).map (· + 1)

/-- Model of `ln.indexOf(' :')` from `parseLine`: index of the first
occurrence of the two-character pattern space-colon, or `none` (JS -1). -/
def firstPairIdx : List Char → Option Nat
  | [] => none
  | [_] => none
  | a :: b :: rest =>
    if a = ' ' ∧ b = ':' then some 0 else (firstPairIdx (b :: rest)).map (· + 1)

/-- Model of JavaScript `String.prototype.substring(a, b)`: clamps both
indices to the string bounds and swaps them when `a > b`. -/
def jsSubstring (l : List Char) (a b : Nat) : List Char :=
  (l.take (max a b)).drop (min a b)

/-- Model of the JavaScript expression `s || null` on a string `s`: the
empty string is falsy and is normalized to `null`. -/
def orNull (l : List Char) : Option (List Char) :=
  if l = [] then none else some l

/-- Model of the JavaScript expression `s || fb` where `s` is a string and
`fb` is a nullable string (used by `authUsername = metadata.split(' ')[0] || authNick`). -/
def jsOr (l : List Char) (fb : Option (List Char)) : Option (List Char) :=
  if l = [] then fb else some l

/-- Model of JavaScript `String.prototype.split` with a single-character
separator: splits on every occurrence, keeping empty segments, and always
returns at least one segment. -/
def splitOnChar (sep : Char) : List Char → List (List Char)
  | [] => [[]]
  | c :: rest =>
    let r := splitOnChar sep rest
    if c = sep then [] :: r else (c :: r.headD []) :: r.tail

/-- Model of JavaScript `Array.prototype.join` with a single-character
separator. -/
def joinSep (sep : Char) : List (List Char) → List Char
  | [] => []
  | [x] => x
  | x :: y :: rest => x ++ sep :: joinSep sep (y :: rest)

/-- ASCII uppercasing of one character, the fragment of JavaScript
`String.prototype.toUpperCase` exercised by the IRC grammar. -/
def upChar (c : Char) : Char :=
  if 97 ≤ c.toNat ∧ c.toNat ≤ 122 then Char.ofNat (c.toNat - 32) else c

/-- Model of `String.prototype.toUpperCase` (ASCII fragment). -/
def toUpperChars (l : List Char) : List Char := l.map upChar

/-- Model of the `IrcClientParsedLine` object produced by
`IrcClient.parseLine` (src/client.js). -/
structure ParsedLine where
  raw : List Char
  name : List Char
  metadata : Option (List Char)
  content : Option (List Char)
deriving DecidableEq, Repr

/-- Shallow embedding of `IrcClient.parseLine` (src/client.js lines
858-882).  Returns `none` for the malformed (null) case. -/
def parseLine (ln : List Char) : Option ParsedLine :=
  if ln.length < 1 then none
  else
    match jsIndexOf ' ' ln with
    | none => some ⟨ln, toUpperChars ln, none, none⟩
    | some spaceIdx =>
      let name := toUpperChars (ln.take spaceIdx)
      match firstPairIdx ln with
      | some contDivIdx =>
        let content := ln.drop (contDivIdx + 2)
        let metadata := jsSubstring ln (name.length + 1) contDivIdx
        some ⟨ln, name, orNull metadata, some content⟩
      | none =>
        let metadata := ln.drop (name.length + 1)
        some ⟨ln, name, orNull metadata, none⟩

example : parseLine (chars "NICK alice") =
    some ⟨chars "NICK alice", chars "NICK", some (chars "alice"), none⟩ := by decide

example : parseLine (chars "USER alice 0 * :Alice") =
    some ⟨chars "USER alice 0 * :Alice", chars "USER",
      some (chars "alice 0 *"), some (chars "Alice")⟩ := by decide

example : parseLine (chars "quit") =
    some ⟨chars "quit", chars "QUIT", none, none⟩ := by decide

example : parseLine (chars "") = none := by decide

example : parseLine (chars "CMD :x") =
    some ⟨chars "CMD :x", chars "CMD", some (chars " "), some (chars "x")⟩ := by decide

/-- Rendering of the spec's own words for `parseLine` (§4.1): metadata is
"the token run between the command name and the \" :\" marker", normalized
to null when empty.  Used only to compare the spec sentence against the
implementation. -/
def parseLineSpec (ln : List Char) : Option ParsedLine :=
  if ln.length < 1 then none
  else
    match jsIndexOf ' ' ln with
    | none => some ⟨ln, toUpperChars ln, none, none⟩
    | some spaceIdx =>
      let name := toUpperChars (ln.take spaceIdx)
      match firstPairIdx ln with
      | some contDivIdx =>
        let content := ln.drop (contDivIdx + 2)
        let metadata := (ln.take contDivIdx).drop (spaceIdx + 1)
        some ⟨ln, name, orNull metadata, some content⟩
      | none =>
        let metadata := ln.drop (spaceIdx + 1)
        some ⟨ln, name, orNull metadata, none⟩

/-- Amended description of `parseLine`: as the spec states it, except that
when the first occurrence of " :" starts at the first space itself (the
character directly after the command name is a colon), the metadata is the
single-space string " " rather than null, a consequence of JavaScript
`substring` swapping its arguments when start exceeds end. -/
def parseLineAmended (ln : List Char) : Option ParsedLine :=
  if ln.length < 1 then none
  else
    match jsIndexOf ' ' ln with
    | none => some ⟨ln, toUpperChars ln, none, none⟩
    | some spaceIdx =>
      let name := toUpperChars (ln.take spaceIdx)
      match firstPairIdx ln with
      | some contDivIdx =>
        let content := ln.drop (contDivIdx + 2)
        let metadata :=
          if contDivIdx = spaceIdx then some [' ']
          else orNull ((ln.take contDivIdx).drop (spaceIdx + 1))
        some ⟨ln, name, metadata, some content⟩
      | none =>
        let metadata := ln.drop (spaceIdx + 1)
        some ⟨ln, name, orNull metadata, none⟩

/-- Capabilities supported by the IRCd framework (`IRCD_CAPS` in
src/constants.js). -/
def IRCD_CAPS : List (List Char) :=
  [chars "server-time", chars "away-notify", chars "chghost",
   chars "invite-notify", chars "multi-prefix", chars "userhost-in-names"]

/-- Model of the `IrcUserInfo` object (src/client.js typedef). -/
structure IrcUserInfo where
  nick : List Char
  username : List Char
  realname : Option (List Char)
  hostname : List Char
  status : List Char
deriving DecidableEq, Repr

/-- Wire line produced for one chunk of a chat message by
`IrcClient.sendChatMessage`: `:<nick>!~u@<hostname> PRIVMSG <channel> :<chunk>`. -/
def privmsgLine (sender : IrcUserInfo) (channel msg : List Char) : List Char :=
  ':' :: sender.nick ++ chars "!~u@" ++ sender.hostname ++
    chars " PRIVMSG " ++ channel ++ chars " :" ++ msg

/-- Fuel-indexed helper for `chatChunks`; the fuel only bounds the number
of loop iterations and is irrelevant once it is at least the message
length. -/
def chatChunksGo : Nat → List Char → List (List Char)
  | 0, _ => []
  | _ + 1, [] => []
  | fuel + 1, c :: rest => (c :: rest).take 512 :: chatChunksGo fuel ((c :: rest).drop 512)

/-- Model of the inner `while (msg.length > 0)` loop of
`sendChatMessage`: splits a message segment into successive chunks of at
most 512 characters. -/
def chatChunks (msg : List Char) : List (List Char) :=
  chatChunksGo msg.length msg

/-- Shallow embedding of `IrcClient.sendChatMessage` (src/client.js lines
1338-1355): the list of lines passed to `sendRawLine`, in order (the
optional `@time=` tag that `sendRawLine` prepends for clients that
negotiated server-time is applied downstream and not modelled here).  The
message is split on embedded newlines, empty segments are skipped, and each
remaining segment is sent in 512-character chunks, each chunk carrying the
same sender and target. -/
def sendChatMessageLines (channel : List Char) (sender : IrcUserInfo)
    (message : List Char) : List (List Char) :=
  (splitOnChar '\n' message).flatMap fun msg =>
    if msg.length < 1 then [] else (chatChunks msg).map (privmsgLine sender channel)

example : sendChatMessageLines (chars "#c") ⟨chars "n", chars "u", none, chars "h", []⟩
    (chars "a\n\nb") =
    [privmsgLine ⟨chars "n", chars "u", none, chars "h", []⟩ (chars "#c") (chars "a"),
     privmsgLine ⟨chars "n", chars "u", none, chars "h", []⟩ (chars "#c") (chars "b")] := by
  decide

/-- Configuration the client reads from its owning `Ircd` (src/ircd.js):
the cosmetic hostname and the authentication timeout duration. -/
structure IrcdConfig where
  hostname : List Char
  authenticationTimeout : Nat

/-- Decision a login attempt handler takes when invoked: call the accept
continuation, call the deny continuation (with an optional reason), return
without deciding, or throw. -/
inductive LoginDecision where
  | accept
  | deny (reason : Option (List Char))
  | noop
  | throwErr

/-- Type of a registered login attempt handler, abstracted to the decision
it takes for given proposed user info and password. -/
def LoginHandler : Type := IrcUserInfo → Option (List Char) → LoginDecision

/-- Per-connection registered handlers relevant to the authentication
logic.  Successful-login and failed-login handlers are abstracted to
whether they throw (`true`) or return normally (`false`). -/
structure ClientHandlers where
  loginAttempt : List LoginHandler
  successfulLogin : List Bool
  failedLogin : List Bool

/-- Observable events of the connection model, in emission order. -/
inductive Ev where
  | lineObserved (p : ParsedLine)
  | quitDispatched (msg : Option (List Char))
  | sent (ln : List Char)
  | authEvalStarted (u : IrcUserInfo) (pass : Option (List Char)) (caps : List (List Char))
  | loginAttemptInvoked (i : Nat) (u : IrcUserInfo) (pass : Option (List Char))
  | successfulLoginInvoked (i : Nat) (u : IrcUserInfo) (pass : Option (List Char))
  | failedLoginInvoked (i : Nat) (u : IrcUserInfo) (pass : Option (List Char))
      (reason : Option (List Char))
  | postAuthCommand (name : List Char)
  | errorLogged
deriving DecidableEq, Repr

/-- Mutable per-connection state of `IrcClient` plus the local variables of
`initialize` (src/client.js lines 905-923).  The authentication timer is
modelled by an armed flag, a generation counter incremented on every
`setTimeout` call, and the duration it was armed with. -/
structure ConnState where
  userInfo : Option IrcUserInfo
  capabilities : List (List Char)
  authNick : Option (List Char)
  authUsername : Option (List Char)
  authRealname : Option (List Char)
  authPass : Option (List Char)
  authCaps : Option (List (List Char))
  authCapsEnded : Bool
  timerArmed : Bool
  timerGen : Nat
  timerDur : Nat
  disconnected : Bool
deriving DecidableEq, Repr

/-- Connection state right after `initialize` sets up its local variables:
nothing negotiated, authentication timer armed for the configured
duration. -/
def initConn (cfg : IrcdConfig) : ConnState :=
  { userInfo := none, capabilities := [], authNick := none, authUsername := none,
    authRealname := none, authPass := none, authCaps := none, authCapsEnded := false,
    timerArmed := true, timerGen := 1, timerDur := cfg.authenticationTimeout,
    disconnected := false }

/-- Wire line produced by `sendServerMessage` (src/client.js line 1175):
`:<hostname> <metadata>` plus ` :<content>` when content is non-null. -/
def serverMessageLine (host metadata : List Char) (content : Option (List Char)) : List Char :=
  ':' :: host ++ ' ' :: metadata ++ (match content with
    | none => []
    | some c => ' ' :: ':' :: c)

/-- Wire lines produced by `sendError` (src/client.js lines 1199-1204): one
`ERROR :<segment>` line per non-empty newline-separated segment. -/
def sendErrorLines (message : List Char) : List (List Char) :=
  (splitOnChar '\n' message).filterMap fun l =>
    if l.length > 0 then some (chars "ERROR :" ++ l) else none

/-- Model of `IrcClient.disconnect` (src/client.js lines 1133-1149): sends
the error message lines when one is given, then closes the socket, which
marks the connection disconnected. -/
def disconnectLogic (s : ConnState) (errMsg : Option (List Char)) : ConnState × List Ev :=
  ({ s with disconnected := true },
   match errMsg with
   | none => []
   | some m => (sendErrorLines m).map Ev.sent)

/-- Model of `commonResLogic` (src/client.js lines 1016-1022): invokes the
given result handlers in order with no exception recovery; returns the
emitted events and whether a handler threw (aborting the remaining ones). -/
def commonResLogic (mk : Nat → Ev) : Nat → List Bool → List Ev × Bool
  | _, [] => ([], false)
  | i, throws :: rest =>
    if throws then ([mk i], true)
    else
      let r := commonResLogic mk (i + 1) rest
      (mk i :: r.1, r.2)

/-- Model of the `accept` continuation (src/client.js lines 1023-1031):
commits `userInfo` and `capabilities` from the proposal, then runs the
successful-login handlers through `commonResLogic`. -/
def acceptLogic (u : IrcUserInfo) (pass : Option (List Char)) (caps : List (List Char))
    (succBeh : List Bool) (s : ConnState) : ConnState × List Ev × Bool :=
  let s1 := { s with userInfo := some u, capabilities := caps }
  let r := commonResLogic (fun i => Ev.successfulLoginInvoked i u pass) 0 succBeh
  (s1, r.1, r.2)

/-- Model of `reason || null` in the `deny` continuation: an absent or
empty reason string is normalized to null. -/
def reasonOrNull : Option (List Char) → Option (List Char)
  | none => none
  | some r => if r = [] then none else some r

/-- Model of the `deny` continuation (src/client.js lines 1036-1041): runs
the failed-login handlers through `commonResLogic`, then (if no handler
threw) re-arms the authentication timeout with the configured duration. -/
def denyLogic (cfg : IrcdConfig) (u : IrcUserInfo) (pass : Option (List Char))
    (reason : Option (List Char)) (failedBeh : List Bool) (s : ConnState) :
    ConnState × List Ev × Bool :=
  let r := commonResLogic (fun i => Ev.failedLoginInvoked i u pass (reasonOrNull reason))
    0 failedBeh
  if r.2 then (s, r.1, true)
  else
    let s1 := { s with timerArmed := true, timerGen := s.timerGen + 1, timerDur := cfg.authenticationTimeout }
    (s1, r.1, false)

/-- Model of the handler loop of `authLogic` (src/client.js lines
1058-1061): invokes login attempt handlers in order until one calls
`accept` or `deny` (or throws); the Boolean result records an uncaught
exception propagating out of the loop. -/
def loginLoop (cfg : IrcdConfig) (u : IrcUserInfo) (pass : Option (List Char))
    (caps : List (List Char)) (succBeh failedBeh : List Bool) :
    Nat → List LoginHandler → ConnState → ConnState × List Ev × Bool
  | _, [], s => (s, [], false)
  | i, h :: rest, s =>
    let ev := Ev.loginAttemptInvoked i u pass
    match h u pass with
    | LoginDecision.noop =>
      let r := loginLoop cfg u pass caps succBeh failedBeh (i + 1) rest s
      (r.1, ev :: r.2.1, r.2.2)
    | LoginDecision.throwErr => (s, [ev], true)
    | LoginDecision.accept =>
      let r := acceptLogic u pass caps succBeh s
      (r.1, ev :: r.2.1, r.2.2)
    | LoginDecision.deny reason =>
      let r := denyLogic cfg u pass reason failedBeh s
      (r.1, ev :: r.2.1, r.2.2)

/-- Proposed `IrcUserInfo` object constructed by `authLogic` from the
candidate fields plus the configured hostname (src/client.js lines
1043-1053). -/
def proposedUserInfo (cfg : IrcdConfig) (s : ConnState) (nick username : List Char) : IrcUserInfo :=
  { nick := nick, username := username, realname := s.authRealname, hostname := cfg.hostname, status := [] }

/-- Model of `authLogic` (src/client.js lines 1002-1062): disconnects when
nick, username, or the capability set is missing; otherwise builds the
proposed `IrcUserInfo`, cancels the authentication timeout, and runs the
login attempt handler loop.  The `authEvalStarted` event marks the point
where the proposal has been constructed and evaluation begins. -/
def authLogic (cfg : IrcdConfig) (hs : ClientHandlers) (s : ConnState) :
    ConnState × List Ev × Bool :=
  match s.authNick, s.authUsername, s.authCaps with
  | some nick, some username, some caps =>
    let u := proposedUserInfo cfg s nick username
    let s0 := { s with timerArmed := false }
    let r := loginLoop cfg u s.authPass caps hs.successfulLogin hs.failedLogin
      0 hs.loginAttempt s0
    (r.1, Ev.authEvalStarted u s.authPass caps :: r.2.1, r.2.2)
  | _, _, _ =>
    let r := disconnectLogic s (some (chars "Insufficient information provided to complete login"))
    (r.1, r.2, false)

/-- Wraps a result that may carry a propagating exception with the per-line
`try/catch` of `initialize` (src/client.js lines 1117-1119), which logs the
error and continues. -/
def withCatch (r : ConnState × List Ev × Bool) : ConnState × List Ev :=
  (r.1, r.2.1 ++ if r.2.2 then [Ev.errorLogged] else [])

/-- Model of the authentication-phase command dispatch of `initialize`
(src/client.js lines 1064-1115): NICK, PASS, USER, and the CAP
subcommands.  A JavaScript `TypeError` from calling `.split` on a null
metadata value is caught by the per-line handler and logged. -/
def processAuthLine (cfg : IrcdConfig) (hs : ClientHandlers) (s : ConnState)
    (ln : List Char) (parsed : ParsedLine) : ConnState × List Ev :=
  if parsed.name = chars "NICK" then
    let s1 := { s with authNick := parsed.metadata }
    if s1.authNick.isSome && s1.authUsername.isSome && s1.authCaps.isSome then
      withCatch (authLogic cfg hs s1)
    else (s1, [])
  else if parsed.name = chars "PASS" then
    ({ s with authPass := parsed.metadata }, [])
  else if parsed.name = chars "USER" then
    match parsed.metadata with
    | none => (s, [Ev.errorLogged])
    | some m =>
      let s1 := { s with authUsername := jsOr ((splitOnChar ' ' m).headD []) s.authNick, authRealname := parsed.content }
      (s1, [])
  else if parsed.name = chars "CAP" then
    match parsed.metadata with
    | none => (s, [Ev.errorLogged])
    | some m =>
      let capArgs := splitOnChar ' ' m
      let capCmd := toUpperChars (capArgs.headD [])
      if capCmd = chars "LS" then
        (s, [Ev.sent (serverMessageLine cfg.hostname (chars "CAP * LS")
          (some (joinSep ' ' IRCD_CAPS)))])
      else if capCmd = chars "REQ" then
        match jsIndexOf ':' ln with
        | none => (s, (sendErrorLines (chars "Malformed line received")).map Ev.sent)
        | some lnColonIdx =>
          let ackCaps := (splitOnChar ' ' (ln.drop (lnColonIdx + 1))).filter
            (fun cap => decide (cap ∈ IRCD_CAPS))
          let ackEv := Ev.sent (serverMessageLine cfg.hostname (chars "CAP * ACK")
            (some (joinSep ' ' ackCaps)))
          let s1 := { s with authCaps := some (s.authCaps.getD [] ++ ackCaps) }
          if s1.authCapsEnded then
            let r := withCatch (authLogic cfg hs s1)
            (r.1, ackEv :: r.2)
          else (s1, [ackEv])
      else if capCmd = chars "END" then
        if s.authCaps.isSome then withCatch (authLogic cfg hs s)
        else (s, [])
      else (s, [])
  else (s, [])

/-- Model of the per-line handler installed by `IrcClient.initialize`
(src/client.js lines 927-1123): parse the line, dispatch the raw-line
event, handle QUIT, then branch on the authentication state.  The
authenticated-state branch dispatches the command-specific host event and
never modifies the authentication, capability, or timer state, so it is
modelled as the identity on the connection state. -/
def processLine (cfg : IrcdConfig) (hs : ClientHandlers) (s : ConnState)
    (ln : List Char) : ConnState × List Ev :=
  match parseLine ln with
  | none => (s, (sendErrorLines (chars "Malformed line received")).map Ev.sent)
  | some parsed =>
    if parsed.name = chars "QUIT" then
      let r := disconnectLogic s none
      (r.1, Ev.lineObserved parsed :: Ev.quitDispatched parsed.content :: r.2)
    else if s.userInfo.isSome then
      (s, [Ev.lineObserved parsed, Ev.postAuthCommand parsed.name])
    else
      let r := processAuthLine cfg hs s ln parsed
      (r.1, Ev.lineObserved parsed :: r.2)

/-- Processes a sequence of input lines in arrival order, accumulating the
emitted events. -/
def runLines (cfg : IrcdConfig) (hs : ClientHandlers) (s : ConnState) :
    List (List Char) → ConnState × List Ev
  | [] => (s, [])
  | ln :: rest =>
    let r1 := processLine cfg hs s ln
    let r2 := runLines cfg hs r1.1 rest
    (r2.1, r1.2 ++ r2.2)

/-- Observable events of the generic event dispatcher model. -/
inductive DEv where
  | invoked (i : Nat)
  | logged (i : Nat)
deriving DecidableEq, Repr

/-- Shallow embedding of the static `#dispatchEvent` method (src/client.js
lines 823-831): invokes every registered handler in order inside a
`try/catch` that logs a thrown error and continues with the next handler.
Handlers are abstracted to whether they throw (`true`) or return normally
(`false`); the function is total, reflecting that no handler exception
escapes to the caller. -/
def dispatchEvent : Nat → List Bool → List DEv
  | _, [] => []
  | i, throws :: rest =>
    (DEv.invoked i :: if throws then [DEv.logged i] else []) ++ dispatchEvent (i + 1) rest

/-- Extracts the index of a handler-invocation event of the generic
dispatcher. -/
def dInvokedIdx : DEv → Option Nat
  | DEv.invoked i => some i
  | _ => none

lemma dispatchEvent_invoked_range (handlers : List Bool) :
    ∀ n, (dispatchEvent n handlers).filterMap dInvokedIdx = List.range' n handlers.length := by
  induction handlers with
  | nil => intro n; simp [dispatchEvent]
  | cons b rest ih =>
    intro n
    cases b <;> simp [dispatchEvent, dInvokedIdx, ih, List.range'_succ]

lemma dispatchEvent_logged (handlers : List Bool) :
    ∀ n i, handlers.get? i = some true → DEv.logged (n + i) ∈ dispatchEvent n handlers := by
  induction handlers with
  | nil => intro n i h; simp at h
  | cons b rest ih =>
    intro n i h
    cases i with
    | zero => simp at h; subst h; simp [dispatchEvent]
    | succ j =>
      simp only [List.get?_cons_succ] at h
      have hmem := ih (n + 1) j h
      have harith : n + 1 + j = n + (j + 1) := by omega
      rw [harith] at hmem
      cases b <;> simp [dispatchEvent] <;> exact hmem

/-- C8: for every event dispatch performed through the generic dispatcher
`#dispatchEvent`, the registered handlers run in registration order (the
invocation events are exactly indices 0,1,...,n-1 in order), and a handler
that throws is logged while the later handlers still run; no exception
escapes the dispatcher (it is a total function into a trace). -/
theorem dispatchEvent_in_order_and_isolated (handlers : List Bool) :
    (dispatchEvent 0 handlers).filterMap dInvokedIdx = List.range handlers.length
    ∧ ∀ i, handlers.get? i = some true → DEv.logged i ∈ dispatchEvent 0 handlers := by
  constructor
  · rw [List.range_eq_range']
    exact dispatchEvent_invoked_range handlers 0
  · intro i h
    simpa using dispatchEvent_logged handlers 0 i h

/-- Number of result handlers `commonResLogic` actually invokes: all of
them up to and including the first one that throws. -/
def resStopLen : List Bool → Nat
  | [] => 0
  | b :: rest => if b then 1 else 1 + resStopLen rest

lemma resStopLen_le (beh : List Bool) : resStopLen beh ≤ beh.length := by
  induction beh with
  | nil => simp [resStopLen]
  | cons b rest ih =>
    cases b
    · simp only [resStopLen, if_neg (by simp : ¬(false = true)), List.length_cons]
      omega
    · simp [resStopLen]

lemma resStopLen_all_false (beh : List Bool) (h : ∀ b ∈ beh, b = false) :
    resStopLen beh = beh.length := by
  induction beh with
  | nil => simp [resStopLen]
  | cons b rest ih =>
    have hb : b = false := h b (by simp)
    subst hb
    simp only [resStopLen, if_neg (by simp : ¬(false = true)), List.length_cons]
    rw [ih fun x hx => h x (by simp [hx])]
    omega

lemma commonResLogic_events (mk : Nat → Ev) (beh : List Bool) :
    ∀ i, (commonResLogic mk i beh).1 = (List.range' i (resStopLen beh)).map mk := by
  induction beh with
  | nil => intro i; simp [commonResLogic, resStopLen]
  | cons b rest ih =>
    intro i
    cases b
    · simp only [commonResLogic, if_neg (by simp : ¬(false = true)), resStopLen]
      rw [ih (i + 1)]
      rw [show 1 + resStopLen rest = resStopLen rest + 1 from by omega, List.range'_succ]
      simp
    · simp [commonResLogic, resStopLen, List.range'_succ]

lemma commonResLogic_threw (mk : Nat → Ev) (beh : List Bool) :
    ∀ i, (commonResLogic mk i beh).2 = true ↔ true ∈ beh := by
  induction beh with
  | nil => intro i; simp [commonResLogic]
  | cons b rest ih =>
    intro i
    cases b
    · simp only [commonResLogic, if_neg (by simp : ¬(false = true))]
      rw [ih (i + 1)]
      simp
    · simp [commonResLogic]

/-- C4 counterexample scenario values: a connection in the authentication
phase with two successful-login handlers of which the first throws. -/
def c4State : ConnState :=
  { initConn ⟨chars "host", 10000⟩ with
    authNick := some (chars "alice")
    authUsername := some (chars "alice")
    authCaps := some [] }

/-- C4 counterexample user proposal. -/
def c4User : IrcUserInfo :=
  { nick := chars "alice", username := chars "alice", realname := none,
    hostname := chars "host", status := [] }

/-- C4: counterexample.  When `accept` runs with two registered
successful-login handlers of which the first throws, the second handler is
never invoked: `commonResLogic` has no per-handler `try/catch`, so unlike
the generic dispatcher the successful-login dispatch is not
fault-isolated, contradicting the claim. -/
theorem acceptLogic_not_fault_isolated :
    (acceptLogic c4User none [] [true, false] c4State).1.userInfo = some c4User
    ∧ Ev.successfulLoginInvoked 0 c4User none
        ∈ (acceptLogic c4User none [] [true, false] c4State).2.1
    ∧ Ev.successfulLoginInvoked 1 c4User none
        ∉ (acceptLogic c4User none [] [true, false] c4State).2.1
    ∧ (acceptLogic c4User none [] [true, false] c4State).2.2 = true := by
  decide

/-- C4 amended: when `accept` is called during an auth evaluation, the
connection's `userInfo` and `capabilities` are committed from the proposal
before any successful-login handler runs, and the successful-login
handlers then run in registration order up to and including the first
handler that throws; a thrown handler exception aborts the remaining
successful-login handlers and propagates out of `accept` (it is caught and
logged only by the per-line catch).  When no handler throws, every
registered handler runs. -/
theorem acceptLogic_commits_and_runs_in_order (u : IrcUserInfo)
    (pass : Option (List Char)) (caps : List (List Char)) (succBeh : List Bool)
    (s : ConnState) :
    (acceptLogic u pass caps succBeh s).1.userInfo = some u
    ∧ (acceptLogic u pass caps succBeh s).1.capabilities = caps
    ∧ (acceptLogic u pass caps succBeh s).2.1 =
        (List.range (resStopLen succBeh)).map (fun i => Ev.successfulLoginInvoked i u pass)
    ∧ resStopLen succBeh ≤ succBeh.length
    ∧ ((∀ b ∈ succBeh, b = false) → resStopLen succBeh = succBeh.length)
    ∧ ((acceptLogic u pass caps succBeh s).2.2 = true ↔ true ∈ succBeh) := by
  refine ⟨rfl, rfl, ?_, resStopLen_le succBeh, resStopLen_all_false succBeh, ?_⟩
  · rw [List.range_eq_range']
    exact commonResLogic_events _ succBeh 0
  · exact commonResLogic_threw _ succBeh 0

/-- C4 amended witness: concrete run with two well-behaved handlers. -/
theorem acceptLogic_commits_and_runs_in_order_witness :
    (acceptLogic c4User none [] [false, false] c4State).2.1 =
        (List.range (resStopLen [false, false])).map
          (fun i => Ev.successfulLoginInvoked i c4User none)
    ∧ resStopLen [false, false] = 2 := by
  refine ⟨(acceptLogic_commits_and_runs_in_order c4User none [] [false, false] c4State).2.2.1, ?_⟩
  have := (acceptLogic_commits_and_runs_in_order c4User none [] [false, false] c4State).2.2.2.2.1
    (by decide)
  simpa using this

/-- C5: when `deny` is called during an auth evaluation and the
failed-login handlers complete normally, they are all dispatched in order
with the proposed user info, the candidate password, and the reason
(normalized by `reason || null`); the resulting state is the input state
with only the timer fields changed (`userInfo` stays null and every
candidate handshake field is left unchanged), and the authentication
timeout is re-armed afresh (a new timer generation) for the full
configured duration. -/
theorem denyLogic_dispatches_and_rearms_timer (cfg : IrcdConfig) (u : IrcUserInfo)
    (pass reason : Option (List Char)) (failedBeh : List Bool) (s : ConnState)
    (hok : ∀ b ∈ failedBeh, b = false) (huser : s.userInfo = none) :
    denyLogic cfg u pass reason failedBeh s =
      ({ s with timerArmed := true, timerGen := s.timerGen + 1, timerDur := cfg.authenticationTimeout },
       (List.range failedBeh.length).map
         (fun i => Ev.failedLoginInvoked i u pass (reasonOrNull reason)),
       false)
    ∧ (denyLogic cfg u pass reason failedBeh s).1.userInfo = none := by
  have hthrew : (commonResLogic
      (fun i => Ev.failedLoginInvoked i u pass (reasonOrNull reason)) 0 failedBeh).2 = false := by
    by_contra hcon
    have htrue : true ∈ failedBeh := by
      rw [← commonResLogic_threw (fun i => Ev.failedLoginInvoked i u pass (reasonOrNull reason))
        failedBeh 0]
      revert hcon
      cases (commonResLogic (fun i => Ev.failedLoginInvoked i u pass (reasonOrNull reason))
        0 failedBeh).2 <;> simp
    exact absurd (hok true htrue) (by simp)
  have hev := commonResLogic_events
    (fun i => Ev.failedLoginInvoked i u pass (reasonOrNull reason)) failedBeh 0
  have hstop := resStopLen_all_false failedBeh hok
  have hden : denyLogic cfg u pass reason failedBeh s =
      ({ s with timerArmed := true, timerGen := s.timerGen + 1, timerDur := cfg.authenticationTimeout },
       (List.range failedBeh.length).map
         (fun i => Ev.failedLoginInvoked i u pass (reasonOrNull reason)),
       false) := by
    simp only [denyLogic, hthrew, Bool.false_eq_true, if_false]
    rw [hev, hstop, List.range_eq_range']
  refine ⟨hden, ?_⟩
  rw [hden]
  exact huser

/-- C5 witness: concrete deny with one well-behaved failed-login handler
and a non-empty reason. -/
theorem denyLogic_dispatches_and_rearms_timer_witness :
    (denyLogic ⟨chars "host", 10000⟩ c4User (some (chars "pw")) (some (chars "no"))
      [false] c4State).1.timerGen = c4State.timerGen + 1
    ∧ (denyLogic ⟨chars "host", 10000⟩ c4User (some (chars "pw")) (some (chars "no"))
      [false] c4State).1.userInfo = none := by
  have h := denyLogic_dispatches_and_rearms_timer ⟨chars "host", 10000⟩ c4User
    (some (chars "pw")) (some (chars "no")) [false] c4State (by decide) (by decide)
  constructor
  · rw [h.1]
  · exact h.2

/-- Extracts the data of a login-attempt invocation event. -/
def attemptOf : Ev → Option (Nat × IrcUserInfo × Option (List Char))
  | Ev.loginAttemptInvoked i u p => some (i, u, p)
  | _ => none

/-- Number of login attempt handlers the loop of `authLogic` invokes: all
of them up to and including the first one that calls `accept` or `deny`
(or throws). -/
def loginStopLen (u : IrcUserInfo) (pass : Option (List Char)) : List LoginHandler → Nat
  | [] => 0
  | h :: rest =>
    match h u pass with
    | LoginDecision.noop => 1 + loginStopLen u pass rest
    | _ => 1

lemma loginStopLen_le (u : IrcUserInfo) (pass : Option (List Char)) (hsl : List LoginHandler) :
    loginStopLen u pass hsl ≤ hsl.length := by
  induction hsl with
  | nil => simp [loginStopLen]
  | cons h rest ih =>
    simp only [loginStopLen, List.length_cons]
    cases h u pass <;> (simp; try omega)

lemma loginStopLen_le_of_decides (u : IrcUserInfo) (pass : Option (List Char)) :
    ∀ (hsl : List LoginHandler) (j : Nat) (h : LoginHandler), hsl.get? j = some h →
      h u pass ≠ LoginDecision.noop → loginStopLen u pass hsl ≤ j + 1 := by
  intro hsl
  induction hsl with
  | nil => intro j h hj; simp at hj
  | cons h0 rest ih =>
    intro j h hj hne
    cases j with
    | zero =>
      simp only [List.get?_cons_zero, Option.some_inj] at hj
      rw [← hj] at hne
      rcases hcase : h0 u pass with _ | r | _ | _ <;> simp_all [loginStopLen]
    | succ j2 =>
      simp only [List.get?_cons_succ] at hj
      have hrec := ih j2 h hj hne
      simp only [loginStopLen]
      rcases h0 u pass with _ | r | _ | _ <;> (simp; try omega)

lemma commonResLogic_no_attempts (mk : Nat → Ev) (hmk : ∀ i, attemptOf (mk i) = none)
    (beh : List Bool) : ∀ i, ((commonResLogic mk i beh).1).filterMap attemptOf = [] := by
  induction beh with
  | nil => intro i; simp [commonResLogic]
  | cons b rest ih =>
    intro i
    cases b
    · simp only [commonResLogic, if_neg (by simp : ¬(false = true))]
      simp [List.filterMap_cons, hmk, ih (i + 1)]
    · simp [commonResLogic, List.filterMap_cons, hmk]

lemma loginLoop_attempts (cfg : IrcdConfig) (u : IrcUserInfo) (pass : Option (List Char))
    (caps : List (List Char)) (sb fb : List Bool) :
    ∀ (hsl : List LoginHandler) (i : Nat) (s : ConnState),
      ((loginLoop cfg u pass caps sb fb i hsl s).2.1).filterMap attemptOf =
        (List.range' i (loginStopLen u pass hsl)).map (fun j => (j, u, pass)) := by
  intro hsl
  induction hsl with
  | nil => intro i s; simp [loginLoop, loginStopLen]
  | cons h rest ih =>
    intro i s
    rcases hcase : h u pass with _ | r | _ | _
    · -- accept
      simp only [loginLoop, hcase, loginStopLen]
      rw [List.range'_succ]
      simp only [List.filterMap_cons, attemptOf, List.map_cons, List.range'_zero, List.map_nil]
      rw [show (acceptLogic u pass caps sb s).2.1 =
        (commonResLogic (fun i => Ev.successfulLoginInvoked i u pass) 0 sb).1 from rfl]
      rw [commonResLogic_no_attempts (fun i => Ev.successfulLoginInvoked i u pass)
        (fun i => rfl) sb 0]
    · -- deny
      simp only [loginLoop, hcase, loginStopLen]
      rw [List.range'_succ]
      simp only [List.filterMap_cons, attemptOf, List.map_cons, List.range'_zero, List.map_nil]
      have hde : (denyLogic cfg u pass r fb s).2.1 =
          (commonResLogic (fun i => Ev.failedLoginInvoked i u pass (reasonOrNull r)) 0 fb).1 := by
        simp only [denyLogic]
        split <;> rfl
      rw [hde, commonResLogic_no_attempts
        (fun i => Ev.failedLoginInvoked i u pass (reasonOrNull r)) (fun i => rfl) fb 0]
    · -- noop
      simp only [loginLoop, hcase, loginStopLen]
      simp only [List.filterMap_cons, attemptOf]
      rw [ih (i + 1) s]
      rw [show 1 + loginStopLen u pass rest = loginStopLen u pass rest + 1 from by omega,
        List.range'_succ]
      simp
    · -- throwErr
      simp only [loginLoop, hcase, loginStopLen]
      simp [List.filterMap_cons, attemptOf, List.range'_succ]

/-- C3: during a single auth attempt evaluation with complete candidate
data, the login attempt handlers are invoked sequentially in registration
order (the invocation events carry consecutive indices 0..k-1 with the
proposed user info and candidate password, the accept/deny continuations
being supplied structurally), and once a handler calls `accept` or `deny`
no later login-attempt handler is invoked in that evaluation. -/
theorem authLogic_handlers_in_order_until_decided (cfg : IrcdConfig) (hs : ClientHandlers)
    (s : ConnState) (nick username : List Char) (caps : List (List Char))
    (hn : s.authNick = some nick) (hu : s.authUsername = some username)
    (hc : s.authCaps = some caps) :
    ∃ k, k ≤ hs.loginAttempt.length
    ∧ ((authLogic cfg hs s).2.1).filterMap attemptOf =
        (List.range k).map (fun j => (j, proposedUserInfo cfg s nick username, s.authPass))
    ∧ ∀ j h, hs.loginAttempt.get? j = some h →
        (h (proposedUserInfo cfg s nick username) s.authPass = LoginDecision.accept
         ∨ ∃ r, h (proposedUserInfo cfg s nick username) s.authPass = LoginDecision.deny r) →
        ∀ i, j < i →
          Ev.loginAttemptInvoked i (proposedUserInfo cfg s nick username) s.authPass
            ∉ (authLogic cfg hs s).2.1 := by
  set u : IrcUserInfo := proposedUserInfo cfg s nick username with hudef
  have htr : ((authLogic cfg hs s).2.1).filterMap attemptOf =
      (List.range' 0 (loginStopLen u s.authPass hs.loginAttempt)).map
        (fun j => (j, u, s.authPass)) := by
    simp only [authLogic, hn, hu, hc]
    simp only [List.filterMap_cons, attemptOf]
    exact loginLoop_attempts cfg u s.authPass caps hs.successfulLogin hs.failedLogin
      hs.loginAttempt 0 _
  refine ⟨loginStopLen u s.authPass hs.loginAttempt,
    loginStopLen_le u s.authPass hs.loginAttempt, ?_, ?_⟩
  · rw [htr, List.range_eq_range']
  · intro j h hj hdec i hji hmem
    have hne : h u s.authPass ≠ LoginDecision.noop := by
      rcases hdec with hacc | ⟨r, hden⟩
      · rw [hacc]; simp
      · rw [hden]; simp
    have hstop := loginStopLen_le_of_decides u s.authPass hs.loginAttempt j h hj hne
    have hin : (i, u, s.authPass) ∈
        ((authLogic cfg hs s).2.1).filterMap attemptOf :=
      List.mem_filterMap.mpr ⟨_, hmem, rfl⟩
    rw [htr] at hin
    rcases List.mem_map.mp hin with ⟨j2, hj2, heq⟩
    have hj2i : j2 = i := congrArg Prod.fst heq
    subst hj2i
    have := List.mem_range'.mp hj2
    omega

/-- Concrete login attempt handlers for witnesses: one handler that does
not decide, then one that denies, then one that would accept. -/
def c3Handlers : ClientHandlers :=
  { loginAttempt :=
      [fun _ _ => LoginDecision.noop, fun _ _ => LoginDecision.deny none,
       fun _ _ => LoginDecision.accept]
    successfulLogin := []
    failedLogin := [] }

/-- C3 witness: the evaluation over `c3Handlers` from a fully populated
candidate state. -/
theorem authLogic_handlers_in_order_until_decided_witness :
    ∃ k, k ≤ c3Handlers.loginAttempt.length
    ∧ ((authLogic ⟨chars "host", 10000⟩ c3Handlers c4State).2.1).filterMap attemptOf =
        (List.range k).map (fun j =>
          (j, proposedUserInfo ⟨chars "host", 10000⟩ c4State (chars "alice") (chars "alice"),
           c4State.authPass))
    ∧ ∀ j h, c3Handlers.loginAttempt.get? j = some h →
        (h (proposedUserInfo ⟨chars "host", 10000⟩ c4State (chars "alice") (chars "alice"))
            c4State.authPass = LoginDecision.accept
         ∨ ∃ r, h (proposedUserInfo ⟨chars "host", 10000⟩ c4State (chars "alice") (chars "alice"))
            c4State.authPass = LoginDecision.deny r) →
        ∀ i, j < i →
          Ev.loginAttemptInvoked i
            (proposedUserInfo ⟨chars "host", 10000⟩ c4State (chars "alice") (chars "alice"))
            c4State.authPass
            ∉ (authLogic ⟨chars "host", 10000⟩ c3Handlers c4State).2.1 :=
  authLogic_handlers_in_order_until_decided ⟨chars "host", 10000⟩ c3Handlers c4State
    (chars "alice") (chars "alice") [] rfl rfl rfl

/-- Marker for auth attempt evaluation activity: either the evaluation
start itself or any login attempt handler invocation. -/
def isAuthAttemptEv : Ev → Bool
  | Ev.authEvalStarted _ _ _ => true
  | Ev.loginAttemptInvoked _ _ _ => true
  | _ => false

/-- Marker for the start of an auth attempt evaluation. -/
def isAuthEvalEv : Ev → Bool
  | Ev.authEvalStarted _ _ _ => true
  | _ => false

/-- Server configuration used in the end-to-end scenarios. -/
def c1Config : IrcdConfig := ⟨chars "my.network", 10000⟩

/-- Handlers used in the end-to-end scenarios: a single login attempt
handler that accepts. -/
def c1Handlers : ClientHandlers :=
  { loginAttempt := [fun _ _ => LoginDecision.accept]
    successfulLogin := []
    failedLogin := [] }

/-- Proposed user info of the end-to-end scenario. -/
def c1User : IrcUserInfo :=
  { nick := chars "alice", username := chars "alice", realname := some (chars "Alice"),
    hostname := chars "my.network", status := [] }

/-- C1: counterexample.  After `PASS test`, `NICK alice`,
`USER alice 0 * :Alice`, `CAP END` with no prior CAP REQ, the auth attempt
evaluation never fires (zero evaluation starts and zero login attempt
handler invocations, and the connection stays unauthenticated): the CAP
END branch runs `authLogic` only when `authCaps` is non-null, which
requires a prior CAP REQ. -/
theorem capEnd_without_req_never_evaluates :
    ((runLines c1Config c1Handlers (initConn c1Config)
      [chars "PASS test", chars "NICK alice", chars "USER alice 0 * :Alice",
       chars "CAP END"]).2.countP isAuthAttemptEv) = 0
    ∧ (runLines c1Config c1Handlers (initConn c1Config)
      [chars "PASS test", chars "NICK alice", chars "USER alice 0 * :Alice",
       chars "CAP END"]).1.userInfo = none := by
  decide

/-- C1 amended: with the lines `PASS test`, `NICK alice`,
`USER alice 0 * :Alice`, `CAP END` and no prior CAP REQ, the auth attempt
evaluation fires zero times; if the client first sends a CAP REQ line
(here one requesting only an unsupported capability, so nothing is
acknowledged), the same exchange makes the evaluation fire exactly once,
with nick "alice", username "alice", realname "Alice", password "test",
and an empty capability set. -/
theorem capEnd_evaluation_requires_prior_req :
    ((runLines c1Config c1Handlers (initConn c1Config)
      [chars "PASS test", chars "NICK alice", chars "USER alice 0 * :Alice",
       chars "CAP END"]).2.countP isAuthEvalEv) = 0
    ∧ (runLines c1Config c1Handlers (initConn c1Config)
      [chars "CAP REQ :bogus", chars "PASS test", chars "NICK alice",
       chars "USER alice 0 * :Alice", chars "CAP END"]).2.filter isAuthEvalEv =
        [Ev.authEvalStarted c1User (some (chars "test")) []]
    ∧ (runLines c1Config c1Handlers (initConn c1Config)
      [chars "CAP REQ :bogus", chars "PASS test", chars "NICK alice",
       chars "USER alice 0 * :Alice", chars "CAP END"]).2.filter
        (fun e => isAuthAttemptEv e && !isAuthEvalEv e) =
        [Ev.loginAttemptInvoked 0 c1User (some (chars "test"))] := by
  decide

/-- C8 witness: two handlers, the second of which throws; both are invoked
and the throw is logged. -/
theorem dispatchEvent_in_order_and_isolated_witness :
    (dispatchEvent 0 [false, true]).filterMap dInvokedIdx = List.range 2
    ∧ DEv.logged 1 ∈ dispatchEvent 0 [false, true] :=
  ⟨(dispatchEvent_in_order_and_isolated [false, true]).1,
   (dispatchEvent_in_order_and_isolated [false, true]).2 1 rfl⟩

lemma loginLoop_preserves_authCaps (cfg : IrcdConfig) (u : IrcUserInfo)
    (pass : Option (List Char)) (caps : List (List Char)) (sb fb : List Bool) :
    ∀ (hsl : List LoginHandler) (i : Nat) (s : ConnState),
      (loginLoop cfg u pass caps sb fb i hsl s).1.authCaps = s.authCaps := by
  intro hsl
  induction hsl with
  | nil => intro i s; rfl
  | cons h rest ih =>
    intro i s
    rcases hcase : h u pass with _ | r | _ | _
    · simp only [loginLoop, hcase]; rfl
    · simp only [loginLoop, hcase, denyLogic]
      split <;> rfl
    · simp only [loginLoop, hcase]
      exact ih (i + 1) s
    · simp only [loginLoop, hcase]

lemma authLogic_preserves_authCaps (cfg : IrcdConfig) (hs : ClientHandlers) (s : ConnState) :
    (authLogic cfg hs s).1.authCaps = s.authCaps := by
  rcases hn : s.authNick with _ | nk <;> rcases hu : s.authUsername with _ | un <;>
    rcases hc : s.authCaps with _ | cp <;>
      simp [authLogic, hn, hu, hc, loginLoop_preserves_authCaps, disconnectLogic]

/-- C10: processing any CAP REQ line that contains a colon, from any
unauthenticated state, always leaves the candidate capability set
non-null: the acknowledged subset (the requested names filtered by the
advertised list, possibly empty) is appended to the candidate set, and a
`CAP * ACK` reply is sent regardless (with an empty payload when nothing
was acknowledged). -/
theorem capReq_with_colon_always_acks (cfg : IrcdConfig) (hs : ClientHandlers)
    (s : ConnState) (ln : List Char) (p : ParsedLine) (m : List Char) (idx : Nat)
    (hauth : s.userInfo = none)
    (hp : parseLine ln = some p)
    (hname : p.name = chars "CAP")
    (hm : p.metadata = some m)
    (hreq : toUpperChars ((splitOnChar ' ' m).headD []) = chars "REQ")
    (hcolon : jsIndexOf ':' ln = some idx) :
    (processLine cfg hs s ln).1.authCaps =
      some (s.authCaps.getD [] ++ (splitOnChar ' ' (ln.drop (idx + 1))).filter
        (fun cap => decide (cap ∈ IRCD_CAPS)))
    ∧ Ev.sent (serverMessageLine cfg.hostname (chars "CAP * ACK")
        (some (joinSep ' ' ((splitOnChar ' ' (ln.drop (idx + 1))).filter
          (fun cap => decide (cap ∈ IRCD_CAPS)))))) ∈ (processLine cfg hs s ln).2 := by
  have h1 : processLine cfg hs s ln =
      (let r := processAuthLine cfg hs s ln p
       (r.1, Ev.lineObserved p :: r.2)) := by
    simp +decide only [processLine, hp, hname, hauth, if_true, if_false, Option.isSome_none]
  have h2 : processAuthLine cfg hs s ln p =
      (let ackCaps := (splitOnChar ' ' (ln.drop (idx + 1))).filter
        (fun cap => decide (cap ∈ IRCD_CAPS))
       let ackEv := Ev.sent (serverMessageLine cfg.hostname (chars "CAP * ACK")
        (some (joinSep ' ' ackCaps)))
       let s1 := { s with authCaps := some (s.authCaps.getD [] ++ ackCaps) }
       if s1.authCapsEnded then
         let r := withCatch (authLogic cfg hs s1)
         (r.1, ackEv :: r.2)
       else (s1, [ackEv])) := by
    simp +decide only [processAuthLine, hname, hm, hreq, hcolon, if_true, if_false]
  rw [h1]
  simp only [h2]
  by_cases hce : s.authCapsEnded = true
  · simp only [hce, if_true]
    constructor
    · rw [show (withCatch (authLogic cfg hs _)).1 = (authLogic cfg hs _).1 from rfl]
      rw [authLogic_preserves_authCaps]
    · simp
  · simp only [hce, if_false]
    exact ⟨rfl, by simp⟩

/-- C10 witness: a CAP REQ naming only an unsupported capability from a
fresh connection; the candidate set becomes non-null (empty) and the
`CAP * ACK` reply with empty payload is sent. -/
theorem capReq_with_colon_always_acks_witness :
    (processLine c1Config c1Handlers (initConn c1Config) (chars "CAP REQ :bogus")).1.authCaps =
      some ((initConn c1Config).authCaps.getD [] ++
        (splitOnChar ' ' ((chars "CAP REQ :bogus").drop (8 + 1))).filter
          (fun cap => decide (cap ∈ IRCD_CAPS)))
    ∧ Ev.sent (serverMessageLine c1Config.hostname (chars "CAP * ACK")
        (some (joinSep ' ' ((splitOnChar ' ' ((chars "CAP REQ :bogus").drop (8 + 1))).filter
          (fun cap => decide (cap ∈ IRCD_CAPS)))))) ∈
        (processLine c1Config c1Handlers (initConn c1Config) (chars "CAP REQ :bogus")).2 :=
  capReq_with_colon_always_acks c1Config c1Handlers (initConn c1Config)
    (chars "CAP REQ :bogus")
    ⟨chars "CAP REQ :bogus", chars "CAP", some (chars "REQ"), some (chars "bogus")⟩
    (chars "REQ") 8 rfl (by decide) rfl rfl (by decide) (by decide)

/-- Invariant: every capability string held by the connection, in the
candidate set or in the committed list, is advertised. -/
def capsSubsetAdvertised (s : ConnState) : Prop :=
  (∀ caps, s.authCaps = some caps → ∀ c ∈ caps, c ∈ IRCD_CAPS)
  ∧ ∀ c ∈ s.capabilities, c ∈ IRCD_CAPS

lemma loginLoop_capsOk (cfg : IrcdConfig) (u : IrcUserInfo) (pass : Option (List Char))
    (caps : List (List Char)) (sb fb : List Bool) (hcaps : ∀ c ∈ caps, c ∈ IRCD_CAPS) :
    ∀ (hsl : List LoginHandler) (i : Nat) (s : ConnState), capsSubsetAdvertised s →
      capsSubsetAdvertised (loginLoop cfg u pass caps sb fb i hsl s).1 := by
  intro hsl
  induction hsl with
  | nil => intro i s hinv; exact hinv
  | cons h rest ih =>
    intro i s hinv
    rcases hcase : h u pass with _ | r | _ | _
    · -- accept
      simp only [loginLoop, hcase, acceptLogic]
      exact ⟨hinv.1, hcaps⟩
    · -- deny
      simp only [loginLoop, hcase, denyLogic]
      split
      · exact hinv
      · exact hinv
    · -- noop
      simp only [loginLoop, hcase]
      exact ih (i + 1) s hinv
    · -- throwErr
      simpa only [loginLoop, hcase] using hinv

lemma authLogic_capsOk (cfg : IrcdConfig) (hs : ClientHandlers) (s : ConnState)
    (hinv : capsSubsetAdvertised s) : capsSubsetAdvertised (authLogic cfg hs s).1 := by
  unfold authLogic
  split
  · next nick username caps hn hu hc =>
      exact loginLoop_capsOk cfg _ s.authPass caps hs.successfulLogin hs.failedLogin
        (hinv.1 caps hc) hs.loginAttempt 0 _ hinv
  · exact hinv

lemma mem_getD_authCaps (s : ConnState) (hinv : capsSubsetAdvertised s) :
    ∀ c ∈ s.authCaps.getD [], c ∈ IRCD_CAPS := by
  intro c hc
  rcases hcase : s.authCaps with _ | l
  · rw [hcase] at hc
    simp at hc
  · rw [hcase] at hc
    exact hinv.1 l hcase c (by simpa using hc)

lemma capsOk_append_acked (s : ConnState) (hinv : capsSubsetAdvertised s)
    (ackCaps : List (List Char)) (hack : ∀ c ∈ ackCaps, c ∈ IRCD_CAPS) :
    capsSubsetAdvertised { s with authCaps := some (s.authCaps.getD [] ++ ackCaps) } := by
  refine ⟨?_, hinv.2⟩
  intro caps hceq c hc
  have hcaps : caps = s.authCaps.getD [] ++ ackCaps := by
    have := hceq
    simp only [Option.some_inj] at this
    exact this.symm
  subst hcaps
  rcases List.mem_append.mp hc with hl | hr
  · exact mem_getD_authCaps s hinv c hl
  · exact hack c hr

lemma mem_filter_advertised (l : List (List Char)) :
    ∀ c ∈ l.filter (fun cap => decide (cap ∈ IRCD_CAPS)), c ∈ IRCD_CAPS := by
  intro c hc
  exact of_decide_eq_true (List.mem_filter.mp hc).2

lemma processAuthLine_capsOk (cfg : IrcdConfig) (hs : ClientHandlers) (s : ConnState)
    (ln : List Char) (parsed : ParsedLine) (hinv : capsSubsetAdvertised s) :
    capsSubsetAdvertised (processAuthLine cfg hs s ln parsed).1 := by
  simp only [processAuthLine]
  repeat' split
  all_goals try dsimp only [withCatch]
  all_goals try exact hinv
  all_goals try exact authLogic_capsOk cfg hs _ hinv
  all_goals
    first
      | exact capsOk_append_acked s hinv _ (mem_filter_advertised _)
      | (refine authLogic_capsOk cfg hs _ ?_
         exact capsOk_append_acked s hinv _ (mem_filter_advertised _))

lemma processLine_capsOk (cfg : IrcdConfig) (hs : ClientHandlers) (s : ConnState)
    (ln : List Char) (hinv : capsSubsetAdvertised s) :
    capsSubsetAdvertised (processLine cfg hs s ln).1 := by
  simp only [processLine]
  repeat' split
  all_goals try exact hinv
  all_goals try exact processAuthLine_capsOk cfg hs s ln _ hinv

lemma runLines_capsOk (cfg : IrcdConfig) (hs : ClientHandlers) :
    ∀ (lns : List (List Char)) (s : ConnState), capsSubsetAdvertised s →
      capsSubsetAdvertised (runLines cfg hs s lns).1 := by
  intro lns
  induction lns with
  | nil => intro s hinv; exact hinv
  | cons ln rest ih =>
    intro s hinv
    exact ih _ (processLine_capsOk cfg hs s ln hinv)

/-- C7: in every connection state reachable from a fresh connection by
processing any sequence of input lines (with arbitrary registered
handlers), every string in the candidate capability set and every string
in the committed capabilities list is a member of the fixed advertised
list `IRCD_CAPS`; a CAP REQ naming an unsupported capability never adds it
to the acknowledged set. -/
theorem reachable_capabilities_subset_advertised (cfg : IrcdConfig) (hs : ClientHandlers)
    (lns : List (List Char)) :
    (∀ caps, (runLines cfg hs (initConn cfg) lns).1.authCaps = some caps →
      ∀ c ∈ caps, c ∈ IRCD_CAPS)
    ∧ ∀ c ∈ (runLines cfg hs (initConn cfg) lns).1.capabilities, c ∈ IRCD_CAPS := by
  have hinit : capsSubsetAdvertised (initConn cfg) := by
    constructor
    · intro caps hcaps
      simp [initConn] at hcaps
    · intro c hc
      simp [initConn] at hc
  exact runLines_capsOk cfg hs lns (initConn cfg) hinit

/-- C7 witness: after a CAP REQ mixing a supported and an unsupported
capability, the candidate set contains server-time, which the theorem
confirms is advertised. -/
theorem reachable_capabilities_subset_advertised_witness :
    chars "server-time" ∈ IRCD_CAPS
    ∧ (runLines c1Config c1Handlers (initConn c1Config)
        [chars "CAP REQ :server-time bogus"]).1.authCaps = some [chars "server-time"] := by
  refine ⟨?_, by decide⟩
  exact (reachable_capabilities_subset_advertised c1Config c1Handlers
    [chars "CAP REQ :server-time bogus"]).1 [chars "server-time"] (by decide)
    (chars "server-time") (by decide)

lemma splitOnChar_no_sep (sep : Char) :
    ∀ l : List Char, (∀ c ∈ l, c ≠ sep) → splitOnChar sep l = [l] := by
  intro l
  induction l with
  | nil => intro h; rfl
  | cons c rest ih =>
    intro h
    have hc : c ≠ sep := h c (by simp)
    simp only [splitOnChar, if_neg hc]
    rw [ih fun x hx => h x (by simp [hx])]
    rfl

lemma chatChunksGo_nil : ∀ fuel, chatChunksGo fuel [] = [] := by
  intro fuel
  cases fuel <;> rfl

lemma chatChunksGo_mem : ∀ (fuel : Nat) (l chunk : List Char), chunk ∈ chatChunksGo fuel l →
    chunk ≠ [] ∧ chunk.length ≤ 512 := by
  intro fuel
  induction fuel with
  | zero => intro l chunk h; simp [chatChunksGo] at h
  | succ f ih =>
    intro l chunk h
    cases l with
    | nil => simp [chatChunksGo] at h
    | cons c rest =>
      simp only [chatChunksGo, List.mem_cons] at h
      rcases h with h | h
      · subst h
        constructor
        · simp
        · simp only [List.length_take]
          omega
      · exact ih _ chunk h

lemma chatChunksGo_small (fuel : Nat) (l : List Char) (hne : l ≠ []) (hlen : l.length ≤ 512)
    (hfuel : 1 ≤ fuel) : chatChunksGo fuel l = [l] := by
  cases fuel with
  | zero => omega
  | succ f =>
    cases l with
    | nil => exact absurd rfl hne
    | cons c rest =>
      simp only [chatChunksGo]
      rw [List.take_of_length_le hlen, List.drop_eq_nil_of_le hlen, chatChunksGo_nil]

lemma chatChunks_two (l : List Char) (hgt : 512 < l.length) (hle : l.length ≤ 1024) :
    chatChunks l = [l.take 512, l.drop 512] := by
  unfold chatChunks
  cases l with
  | nil => simp at hgt
  | cons c rest =>
    simp only [List.length_cons, chatChunksGo]
    have hdrop : ((c :: rest).drop 512).length = (c :: rest).length - 512 := by
      simp
    rw [chatChunksGo_small rest.length ((c :: rest).drop 512)
      (by intro hcon; rw [hcon] at hdrop; simp at hdrop; simp at hgt; omega)
      (by simp at hle ⊢; omega)
      (by simp at hgt; omega)]

/-- C6: `sendChatMessage` splits its message on embedded newlines, drops
empty segments, and sends each remaining segment in successive chunks of
at most 512 characters, one wire line per chunk, every wire line carrying
the same sender and target (each line is `privmsgLine sender channel
chunk` with a non-empty chunk of at most 512 characters); a 1000-character
message with no newline yields exactly the two lines for its first 512 and
remaining 488 characters, and the message "a\n\nb" yields exactly the
two non-empty lines for "a" and "b". -/
theorem sendChatMessage_chunks (channel : List Char) (sender : IrcUserInfo)
    (message : List Char) :
    (∀ ln ∈ sendChatMessageLines channel sender message,
      ∃ chunk, chunk ≠ [] ∧ chunk.length ≤ 512 ∧ ln = privmsgLine sender channel chunk)
    ∧ (message.length = 1000 → (∀ c ∈ message, c ≠ '\n') →
        sendChatMessageLines channel sender message =
          [privmsgLine sender channel (message.take 512),
           privmsgLine sender channel (message.drop 512)])
    ∧ sendChatMessageLines channel sender (chars "a\n\nb") =
        [privmsgLine sender channel (chars "a"), privmsgLine sender channel (chars "b")] := by
  refine ⟨?_, ?_, rfl⟩
  · intro ln hln
    simp only [sendChatMessageLines, List.mem_flatMap] at hln
    rcases hln with ⟨seg, hseg, hmem⟩
    by_cases hempty : seg.length < 1
    · rw [if_pos hempty] at hmem
      simp at hmem
    · rw [if_neg hempty] at hmem
      rcases List.mem_map.mp hmem with ⟨chunk, hchunk, rfl⟩
      have := chatChunksGo_mem seg.length seg chunk hchunk
      exact ⟨chunk, this.1, this.2, rfl⟩
  · intro hlen hnonl
    simp only [sendChatMessageLines]
    rw [splitOnChar_no_sep '\n' message fun c hc => hnonl c hc]
    simp only [List.flatMap_cons, List.flatMap_nil, List.append_nil]
    rw [if_neg (by omega)]
    rw [show chatChunks message = [message.take 512, message.drop 512] from
      chatChunks_two message (by omega) (by omega)]
    rfl

/-- C6 witness: a 1000-character message with no newline produces exactly
the two expected wire lines. -/
theorem sendChatMessage_chunks_witness :
    sendChatMessageLines (chars "#chan") c4User (List.replicate 1000 'x') =
      [privmsgLine c4User (chars "#chan") ((List.replicate 1000 'x').take 512),
       privmsgLine c4User (chars "#chan") ((List.replicate 1000 'x').drop 512)] :=
  (sendChatMessage_chunks (chars "#chan") c4User (List.replicate 1000 'x')).2.1
    (List.length_replicate 1000 'x')
    (by intro c hc; rw [List.eq_of_mem_replicate hc]; decide)

lemma jsIndexOf_eq_some_iff (c : Char) :
    ∀ (l : List Char) (i : Nat),
      jsIndexOf c l = some i ↔
        (l.get? i = some c ∧ ∀ j < i, l.get? j ≠ some c) := by
  intro l
  induction l with
  | nil => intro i; simp [jsIndexOf]
  | cons a rest ih =>
    intro i
    by_cases hac : a = c
    · subst hac
      simp only [jsIndexOf, if_pos rfl]
      constructor
      · intro h
        have : i = 0 := by simpa using h.symm
        subst this
        exact ⟨by simp, by omega⟩
      · intro ⟨hi, hmin⟩
        cases i with
        | zero => rfl
        | succ j =>
          exact absurd (by simp : (a :: rest).get? 0 = some a) (hmin 0 (by omega))
    · simp only [jsIndexOf, if_neg hac]
      constructor
      · intro h
        rcases Option.map_eq_some'.mp h with ⟨j, hj, rfl⟩
        have := (ih j).mp hj
        refine ⟨by simpa using this.1, ?_⟩
        intro j2 hj2
        cases j2 with
        | zero => simpa using hac
        | succ j3 =>
          simp only [List.get?_cons_succ]
          exact this.2 j3 (by omega)
      · intro ⟨hi, hmin⟩
        cases i with
        | zero =>
          simp only [List.get?_cons_zero, Option.some_inj] at hi
          exact absurd hi hac
        | succ j =>
          simp only [List.get?_cons_succ] at hi
          rw [(ih j).mpr ⟨hi, fun j2 hj2 => by
            have := hmin (j2 + 1) (by omega)
            simpa using this⟩]
          rfl

lemma firstPairIdx_eq_some_iff :
    ∀ (l : List Char) (k : Nat),
      firstPairIdx l = some k ↔
        ((l.get? k = some ' ' ∧ l.get? (k + 1) = some ':')
         ∧ ∀ j < k, ¬(l.get? j = some ' ' ∧ l.get? (j + 1) = some ':')) := by
  intro l
  induction l with
  | nil => intro k; simp [firstPairIdx]
  | cons a tail ih =>
    intro k
    cases tail with
    | nil =>
      simp only [firstPairIdx]
      constructor
      · intro h; simp at h
      · intro ⟨⟨h1, h2⟩, hmin⟩
        cases k with
        | zero => simp at h2
        | succ j => cases j <;> simp at h2
    | cons b rest =>
      by_cases hpair : a = ' ' ∧ b = ':'
      · simp only [firstPairIdx, if_pos hpair]
        constructor
        · intro h
          have : k = 0 := by simpa using h.symm
          subst this
          exact ⟨⟨by simp [hpair.1], by simp [hpair.2]⟩, by omega⟩
        · intro ⟨⟨h1, h2⟩, hmin⟩
          cases k with
          | zero => rfl
          | succ j =>
            exact absurd ⟨by simp [hpair.1], by simp [hpair.2]⟩ (hmin 0 (by omega))
      · simp only [firstPairIdx, if_neg hpair]
        constructor
        · intro h
          rcases Option.map_eq_some'.mp h with ⟨j, hj, rfl⟩
          have hih := (ih j).mp hj
          refine ⟨⟨by simpa using hih.1.1, by simpa using hih.1.2⟩, ?_⟩
          intro j2 hj2 hcon
          cases j2 with
          | zero =>
            apply hpair
            constructor
            · simpa using hcon.1
            · simpa using hcon.2
          | succ j3 =>
            exact hih.2 j3 (by omega) ⟨by simpa using hcon.1, by simpa using hcon.2⟩
        · intro ⟨⟨h1, h2⟩, hmin⟩
          cases k with
          | zero =>
            exact absurd ⟨by simpa using h1, by simpa using h2⟩ hpair
          | succ j =>
            rw [(ih j).mpr ⟨⟨by simpa using h1, by simpa using h2⟩, fun j2 hj2 hcon => by
              have := hmin (j2 + 1) (by omega)
              exact this ⟨by simpa using hcon.1, by simpa using hcon.2⟩⟩]
            rfl

lemma toNat_ofNat_lt (n : Nat) (h : n < 55296) : (Char.ofNat n).toNat = n := by
  rw [Char.ofNat, dif_pos (Or.inl h : n.isValidChar)]
  simp [Char.ofNatAux, Char.toNat, UInt32.toNat, BitVec.toNat_ofNatLt]

lemma toNat_upChar (c : Char) :
    (upChar c).toNat = if 97 ≤ c.toNat ∧ c.toNat ≤ 122 then c.toNat - 32 else c.toNat := by
  by_cases h : 97 ≤ c.toNat ∧ c.toNat ≤ 122
  · rw [upChar, if_pos h, if_pos h, toNat_ofNat_lt _ (by omega)]
  · rw [upChar, if_neg h, if_neg h]

lemma char_toNat_inj {a b : Char} (h : a.toNat = b.toNat) : a = b := by
  apply Char.ext
  exact UInt32.toNat.inj h

lemma upChar_eq_space_iff (c : Char) : upChar c = ' ' ↔ c = ' ' := by
  constructor
  · intro h
    have h2 := congrArg Char.toNat h
    rw [toNat_upChar] at h2
    have hsp : (' ').toNat = 32 := rfl
    rw [hsp] at h2
    split at h2
    · omega
    · exact char_toNat_inj (by rw [h2]; rfl)
  · intro h
    subst h
    rfl

lemma upChar_upChar (c : Char) : upChar (upChar c) = upChar c := by
  by_cases h : 97 ≤ c.toNat ∧ c.toNat ≤ 122
  · have hx : (upChar c).toNat = c.toNat - 32 := by rw [toNat_upChar, if_pos h]
    rw [upChar, if_neg (by rw [hx]; omega)]
  · have hx : upChar c = c := by rw [upChar, if_neg h]
    rw [hx, hx]

lemma toUpperChars_idem (l : List Char) : toUpperChars (toUpperChars l) = toUpperChars l := by
  simp only [toUpperChars, List.map_map]
  apply List.map_congr_left
  intro c hc
  exact upChar_upChar c

lemma toUpperChars_no_space (l : List Char) (h : ∀ c ∈ l, c ≠ ' ') :
    ∀ c ∈ toUpperChars l, c ≠ ' ' := by
  intro c hc
  rcases List.mem_map.mp hc with ⟨a, ha, rfl⟩
  intro hcon
  exact h a ha ((upChar_eq_space_iff a).mp hcon)

lemma toUpperChars_take_length (ln : List Char) (si : Nat) (h : si < ln.length) :
    (toUpperChars (ln.take si)).length = si := by
  simp only [toUpperChars, List.length_map, List.length_take]
  omega

lemma drop_take_succ_eq_get (ln : List Char) (k : Nat) (hk : k < ln.length) (c : Char)
    (hgc : ln.get? k = some c) : (ln.take (k + 1)).drop k = [c] := by
  rw [List.get?_eq_getElem?] at hgc
  rw [List.take_succ, hgc]
  have hlen : (ln.take k).length = k := by
    simp only [List.length_take]
    omega
  rw [List.drop_left' hlen]
  rfl

lemma parseLine_amended_agrees (ln : List Char) :
    parseLine ln = parseLineAmended ln := by
  by_cases hlen : ln.length < 1
  · simp only [parseLine, parseLineAmended, if_pos hlen]
  · cases hsp : jsIndexOf ' ' ln with
    | none => simp only [parseLine, parseLineAmended, if_neg hlen, hsp]
    | some si =>
      have hsi := (jsIndexOf_eq_some_iff ' ' ln si).mp hsp
      rcases List.get?_eq_some.mp hsi.1 with ⟨hsilt, _⟩
      have hname : (toUpperChars (ln.take si)).length = si :=
        toUpperChars_take_length ln si hsilt
      cases hpr : firstPairIdx ln with
      | none =>
        simp only [parseLine, parseLineAmended, if_neg hlen, hsp, hpr, hname]
      | some k =>
        have hk := (firstPairIdx_eq_some_iff ln k).mp hpr
        have hks : si ≤ k := by
          by_contra hcon
          exact hsi.2 k (by omega) hk.1.1
        rcases List.get?_eq_some.mp hk.1.1 with ⟨hklt, _⟩
        simp only [parseLine, parseLineAmended, if_neg hlen, hsp, hpr, hname]
        by_cases hksi : k = si
        · subst hksi
          rw [if_pos rfl]
          have hmeta : jsSubstring ln (k + 1) k = [' '] := by
            rw [jsSubstring, Nat.max_eq_left (by omega), Nat.min_eq_right (by omega)]
            exact drop_take_succ_eq_get ln k hklt ' ' hk.1.1
          rw [hmeta]
          rfl
        · rw [if_neg hksi]
          have hmeta : jsSubstring ln (si + 1) k = (ln.take k).drop (si + 1) := by
            rw [jsSubstring, Nat.max_eq_right (by omega), Nat.min_eq_left (by omega)]
          rw [hmeta]

/-- C2: counterexample.  On the line "CMD :x" (the " :" marker occurring
immediately after the command name), `parseLine` returns metadata " "
(single space) where the spec's description (text between the command name
and the marker, normalized to null when empty) yields null: JavaScript
`substring(start, end)` swaps its arguments when start exceeds end. -/
theorem parseLine_spec_metadata_counterexample :
    parseLine (chars "CMD :x") ≠ parseLineSpec (chars "CMD :x")
    ∧ (parseLine (chars "CMD :x")).map ParsedLine.metadata = some (some (chars " "))
    ∧ (parseLineSpec (chars "CMD :x")).map ParsedLine.metadata = some none := by
  decide

/-- C2 amended: `parseLine` behaves exactly as the spec sentence states,
except in the edge case where the first " :" occurrence starts at the
first space itself (the character right after the command name is a
colon): there the metadata is the single-space string " " rather than
null, because JavaScript `substring` swaps its start and end arguments
when start exceeds end. -/
theorem parseLine_matches_amended_description (ln : List Char) :
    parseLine ln = parseLineAmended ln :=
  parseLine_amended_agrees ln

lemma getElem?_append_cases {α : Type} (l₁ l₂ : List α) (i : Nat) :
    (l₁ ++ l₂)[i]? = if i < l₁.length then l₁[i]? else l₂[i - l₁.length]? :=
  List.getElem?_append

lemma wire_get? (nm m c : List Char) (j : Nat) :
    (nm ++ ' ' :: m ++ ' ' :: ':' :: c).get? j =
      if j < nm.length then nm.get? j
      else if j = nm.length then some ' '
      else if j < nm.length + 1 + m.length then m.get? (j - nm.length - 1)
      else if j = nm.length + 1 + m.length then some ' '
      else if j = nm.length + 2 + m.length then some ':'
      else c.get? (j - nm.length - 3 - m.length) := by
  rw [List.get?_eq_getElem?, getElem?_append_cases, getElem?_append_cases]
  simp only [List.length_append, List.length_cons]
  by_cases h1 : j < nm.length
  · rw [if_pos (by omega), if_pos h1, if_pos h1, List.get?_eq_getElem?]
  · rw [if_neg h1, if_neg h1]
    by_cases h2 : j < nm.length + (m.length + 1)
    · rw [if_pos h2]
      obtain ⟨t, rfl⟩ := Nat.exists_eq_add_of_le (Nat.le_of_not_lt h1)
      cases t with
      | zero => simp
      | succ t2 =>
        rw [show nm.length + (t2 + 1) - nm.length = t2 + 1 from by omega,
          List.getElem?_cons_succ,
          if_neg (by omega : ¬(nm.length + (t2 + 1) = nm.length)),
          if_pos (by omega : nm.length + (t2 + 1) < nm.length + 1 + m.length),
          show t2 + 1 - 1 = t2 from rfl,
          List.get?_eq_getElem?]
    · rw [if_neg h2]
      obtain ⟨u, rfl⟩ := Nat.exists_eq_add_of_le (Nat.le_of_not_lt h2)
      rw [show nm.length + (m.length + 1) + u - (nm.length + (m.length + 1)) = u from by omega]
      cases u with
      | zero =>
        rw [List.getElem?_cons_zero,
          if_neg (by omega : ¬(nm.length + (m.length + 1) + 0 = nm.length)),
          if_neg (by omega : ¬(nm.length + (m.length + 1) + 0 < nm.length + 1 + m.length)),
          if_pos (by omega : nm.length + (m.length + 1) + 0 = nm.length + 1 + m.length)]
      | succ u2 =>
        rw [List.getElem?_cons_succ]
        cases u2 with
        | zero =>
          rw [List.getElem?_cons_zero,
            if_neg (by omega : ¬(nm.length + (m.length + 1) + (0 + 1) = nm.length)),
            if_neg (by omega : ¬(nm.length + (m.length + 1) + (0 + 1) < nm.length + 1 + m.length)),
            if_neg (by omega : ¬(nm.length + (m.length + 1) + (0 + 1) = nm.length + 1 + m.length)),
            if_pos (by omega : nm.length + (m.length + 1) + (0 + 1) = nm.length + 2 + m.length)]
        | succ u3 =>
          rw [List.getElem?_cons_succ,
            if_neg (by omega : ¬(nm.length + (m.length + 1) + (u3 + 1 + 1) = nm.length)),
            if_neg (by omega :
              ¬(nm.length + (m.length + 1) + (u3 + 1 + 1) < nm.length + 1 + m.length)),
            if_neg (by omega :
              ¬(nm.length + (m.length + 1) + (u3 + 1 + 1) = nm.length + 1 + m.length)),
            if_neg (by omega :
              ¬(nm.length + (m.length + 1) + (u3 + 1 + 1) = nm.length + 2 + m.length)),
            show nm.length + (m.length + 1) + (u3 + 1 + 1) - nm.length - 3 - m.length = u3
              from by omega, List.get?_eq_getElem?]

lemma orNull_eq_some {l m : List Char} (h : orNull l = some m) : m = l ∧ l ≠ [] := by
  unfold orNull at h
  split at h
  · exact absurd h (by simp)
  · exact ⟨(Option.some_inj.mp h).symm, by assumption⟩

lemma mem_take_ne (c : Char) (ln : List Char) (si : Nat)
    (h : ∀ j < si, ln.get? j ≠ some c) : ∀ x ∈ ln.take si, x ≠ c := by
  intro x hx hcon
  subst hcon
  obtain ⟨j, hj⟩ := List.mem_iff_get?.mp hx
  have hjlt : j < si := by
    have hlt := List.get?_eq_some.mp hj
    rcases hlt with ⟨hbound, _⟩
    simp only [List.length_take] at hbound
    omega
  rw [List.get?_eq_getElem?, List.getElem?_take_of_lt hjlt, ← List.get?_eq_getElem?] at hj
  exact h j hjlt hj

lemma parseLine_destruct (ln : List Char) (p : ParsedLine) (m c : List Char)
    (hp : parseLine ln = some p) (hm : p.metadata = some m) (hc : p.content = some c) :
    ∃ si k, jsIndexOf ' ' ln = some si ∧ firstPairIdx ln = some k ∧ si ≤ k ∧
      p.name = toUpperChars (ln.take si) ∧
      ((k = si ∧ m = [' ']) ∨ (si < k ∧ m = (ln.take k).drop (si + 1) ∧ m ≠ [])) ∧
      c = ln.drop (k + 2) := by
  rw [parseLine_amended_agrees] at hp
  unfold parseLineAmended at hp
  by_cases hlen : ln.length < 1
  · rw [if_pos hlen] at hp
    exact absurd hp (by simp)
  · rw [if_neg hlen] at hp
    cases hsp : jsIndexOf ' ' ln with
    | none =>
      rw [hsp] at hp
      simp only [Option.some_inj] at hp
      rw [← hp] at hm
      simp at hm
    | some si =>
      rw [hsp] at hp
      cases hpr : firstPairIdx ln with
      | none =>
        rw [hpr] at hp
        simp only [Option.some_inj] at hp
        rw [← hp] at hc
        simp at hc
      | some k =>
        rw [hpr] at hp
        simp only [Option.some_inj] at hp
        rw [← hp] at hm hc
        simp only at hm hc
        have hsi := (jsIndexOf_eq_some_iff ' ' ln si).mp hsp
        have hk := (firstPairIdx_eq_some_iff ln k).mp hpr
        have hks : si ≤ k := by
          by_contra hcon
          exact hsi.2 k (by omega) hk.1.1
        refine ⟨si, k, rfl, rfl, hks, by rw [← hp], ?_, (Option.some_inj.mp hc).symm⟩
        by_cases hksi : k = si
        · rw [if_pos hksi] at hm
          exact Or.inl ⟨hksi, by simpa using hm.symm⟩
        · rw [if_neg hksi] at hm
          have := orNull_eq_some hm
          exact Or.inr ⟨by omega, this.1, by rw [this.1]; exact this.2⟩

/-- C9: for every line whose parse yields both non-null metadata and
non-null content, re-parsing the reassembled string
`<name> <metadata> :<content>` yields the same command name, metadata,
and content (the name is already uppercased by the first parse, and
uppercasing is idempotent). -/
theorem parseLine_roundtrip (ln : List Char) (p : ParsedLine) (m c : List Char)
    (hp : parseLine ln = some p) (hm : p.metadata = some m) (hc : p.content = some c) :
    parseLine (p.name ++ ' ' :: m ++ ' ' :: ':' :: c) =
      some ⟨p.name ++ ' ' :: m ++ ' ' :: ':' :: c, p.name, some m, some c⟩ := by
  obtain ⟨si, k, hsp, hpr, hks, hname, hmeta, hcont⟩ := parseLine_destruct ln p m c hp hm hc
  have hsi := (jsIndexOf_eq_some_iff ' ' ln si).mp hsp
  have hk := (firstPairIdx_eq_some_iff ln k).mp hpr
  obtain ⟨hsilt, _⟩ := List.get?_eq_some.mp hsi.1
  obtain ⟨hklt1, _⟩ := List.get?_eq_some.mp hk.1.2
  have hP1 : ∀ x ∈ p.name, x ≠ ' ' := by
    rw [hname]
    exact toUpperChars_no_space _ (mem_take_ne ' ' ln si hsi.2)
  have hP2 : m ≠ [] := by
    rcases hmeta with ⟨_, rfl⟩ | ⟨_, _, hne⟩
    · simp
    · exact hne
  have hM : 0 < m.length := List.length_pos.mpr hP2
  have hmlen : ∀ (hlt : si < k), m = (ln.take k).drop (si + 1) → m.length = k - (si + 1) := by
    intro hlt hmeq
    rw [hmeq]
    simp only [List.length_drop, List.length_take]
    omega
  have hP3 : m.get? 0 ≠ some ':' := by
    rcases hmeta with ⟨hki, rfl⟩ | ⟨hlt, hmeq, hne⟩
    · simp
    · intro hcon
      have hmlen2 := hmlen hlt hmeq
      have hsik : si + 1 < k := by omega
      rw [hmeq, List.get?_eq_getElem?, List.getElem?_drop,
        List.getElem?_take_of_lt (by omega), ← List.get?_eq_getElem?] at hcon
      exact hk.2 si (by omega) ⟨hsi.1, by simpa using hcon⟩
  have hP4 : ∀ t, ¬(m.get? t = some ' ' ∧ m.get? (t + 1) = some ':') := by
    rcases hmeta with ⟨hki, rfl⟩ | ⟨hlt, hmeq, hne⟩
    · intro t hcon
      rcases hcon with ⟨h1, h2⟩
      cases t with
      | zero => simp at h2
      | succ t2 => simp at h1
    · intro t hcon
      rcases hcon with ⟨h1, h2⟩
      have hmlen2 := hmlen hlt hmeq
      obtain ⟨hblt, _⟩ := List.get?_eq_some.mp h2
      rw [hmeq, List.get?_eq_getElem?, List.getElem?_drop,
        List.getElem?_take_of_lt (by omega), ← List.get?_eq_getElem?] at h1
      rw [hmeq, List.get?_eq_getElem?, List.getElem?_drop,
        List.getElem?_take_of_lt (by omega), ← List.get?_eq_getElem?] at h2
      apply hk.2 (si + 1 + t) (by omega)
      refine ⟨h1, ?_⟩
      rw [show si + 1 + t + 1 = si + 1 + (t + 1) from by omega]
      exact h2
  have hsp2 : jsIndexOf ' ' (p.name ++ ' ' :: m ++ ' ' :: ':' :: c) = some p.name.length := by
    apply (jsIndexOf_eq_some_iff ' ' _ p.name.length).mpr
    constructor
    · rw [wire_get?, if_neg (by omega), if_pos rfl]
    · intro j hj hcon
      rw [wire_get?, if_pos hj] at hcon
      exact hP1 ' ' (List.get?_mem hcon) rfl
  have hpr2 : firstPairIdx (p.name ++ ' ' :: m ++ ' ' :: ':' :: c) =
      some (p.name.length + 1 + m.length) := by
    apply (firstPairIdx_eq_some_iff _ _).mpr
    refine ⟨⟨?_, ?_⟩, ?_⟩
    · rw [wire_get?, if_neg (by omega), if_neg (by omega), if_neg (by omega), if_pos rfl]
    · rw [wire_get?, if_neg (by omega), if_neg (by omega), if_neg (by omega),
        if_neg (by omega), if_pos (by omega)]
    · intro j hj hcon
      rcases hcon with ⟨h1, h2⟩
      rw [wire_get?] at h1 h2
      by_cases c1 : j < p.name.length
      · rw [if_pos c1] at h1
        exact hP1 ' ' (List.get?_mem h1) rfl
      · by_cases c2 : j = p.name.length
        · rw [if_neg (by omega), if_neg (by omega), if_pos (by omega),
            show j + 1 - p.name.length - 1 = 0 from by omega] at h2
          exact hP3 h2
        · rw [if_neg c1, if_neg c2, if_pos (by omega)] at h1
          by_cases c3 : j + 1 < p.name.length + 1 + m.length
          · rw [if_neg (by omega), if_neg (by omega), if_pos c3] at h2
            apply hP4 (j - p.name.length - 1)
            refine ⟨h1, ?_⟩
            rw [show j - p.name.length - 1 + 1 = j + 1 - p.name.length - 1 from by omega]
            exact h2
          · rw [if_neg (by omega), if_neg (by omega), if_neg c3, if_pos (by omega)] at h2
            simp at h2
  have hlen2 : ¬((p.name ++ ' ' :: m ++ ' ' :: ':' :: c).length < 1) := by
    simp only [List.length_append, List.length_cons]
    omega
  have htake : (p.name ++ ' ' :: m ++ ' ' :: ':' :: c).take p.name.length = p.name := by
    rw [List.append_assoc, List.take_left]
  have hupper : toUpperChars p.name = p.name := by
    rw [hname, toUpperChars_idem]
  have hjsub : jsSubstring (p.name ++ ' ' :: m ++ ' ' :: ':' :: c) (p.name.length + 1)
      (p.name.length + 1 + m.length) = m := by
    rw [jsSubstring, Nat.max_eq_right (by omega), Nat.min_eq_left (by omega)]
    have htk : (p.name ++ ' ' :: m ++ ' ' :: ':' :: c).take (p.name.length + 1 + m.length) =
        p.name ++ ' ' :: m := by
      apply List.take_left'
      simp only [List.length_append, List.length_cons]
      omega
    rw [htk, show p.name ++ ' ' :: m = (p.name ++ [' ']) ++ m from by simp]
    apply List.drop_left'
    simp
  have hdropc : (p.name ++ ' ' :: m ++ ' ' :: ':' :: c).drop
      (p.name.length + 1 + m.length + 2) = c := by
    rw [show (p.name ++ ' ' :: m ++ ' ' :: ':' :: c) =
      ((p.name ++ ' ' :: m) ++ [' ', ':']) ++ c from by simp]
    apply List.drop_left'
    simp only [List.length_append, List.length_cons, List.length_nil]
    omega
  simp only [parseLine, if_neg hlen2, hsp2, hpr2, htake, hupper, hjsub, hdropc]
  rw [orNull, if_neg hP2]

/-- C9 witness: round trip of the parse of "PRIVMSG #chan :hello". -/
theorem parseLine_roundtrip_witness :
    parseLine (chars "PRIVMSG" ++ ' ' :: chars "#chan" ++ ' ' :: ':' :: chars "hello") =
      some ⟨chars "PRIVMSG" ++ ' ' :: chars "#chan" ++ ' ' :: ':' :: chars "hello",
        chars "PRIVMSG", some (chars "#chan"), some (chars "hello")⟩ :=
  parseLine_roundtrip (chars "PRIVMSG #chan :hello")
    ⟨chars "PRIVMSG #chan :hello", chars "PRIVMSG", some (chars "#chan"), some (chars "hello")⟩
    (chars "#chan") (chars "hello") (by decide) rfl rfl
